import Mathlib

/-!
Shallow embedding of the localization-resolution and branding core of the
repository (src/app/i18n/index.ts together with the language registry in
src/unnamed/part_000), and proofs about the claims concerning it.

Conventions of the embedding:
* JavaScript strings become Lean `String`; the catalog values, which the code
  inspects with a typeof check, become `MVal` (a string, or an opaque
  non-string value abstracted to its truthiness).
* The JavaScript truthiness-based `||` on possibly-undefined strings becomes
  `jsOr : Option String → String → String` (undefined and the empty string are
  falsy).
* The case-insensitive global regex replace `value.replace(/Mattermost/gi, b)`
  becomes `ciReplace` on character lists: scan left to right, at each position
  replace the leftmost case-insensitive occurrence of the pattern and resume
  after it.  The regex has no u flag, so its case folding is ASCII-only for the
  ASCII pattern, matching `Char.toLower`.
* The module-level inputs that are external to the repository - the two bundled
  message catalogs (en.json, fa.json), the success or failure of the formatjs
  locale-data requires, and the device locale - are threaded explicitly as an
  `Env` record and a `deviceTag` argument.  The logError call in the catch
  branch is modelled by a log-call counter returned next to the catalog.
-/

/-- The constant PRIMARY_LOCALE from src/app/i18n/index.ts. -/
def PRIMARY_LOCALE : String := "fa"

/-- The record BRAND_NAME_PER_LOCALE, as a partial lookup. -/
def BRAND_NAME_PER_LOCALE : String → Option String := fun l =>
  if l = "en" then some "Andisheh Hosseini Elementary"
  else if l = "fa" then some "دبستان اندیشه حسینی"
  else none

/-- The characters of the fixed legacy token matched by MATTERMOST_REGEX. -/
def MATTERMOST : List Char := "Mattermost".data

/-- JavaScript `a || b` where `a` is a possibly-undefined string: undefined and
the empty string are falsy. -/
def jsOr (a : Option String) (b : String) : String :=
  match a with
  | some s => if s.isEmpty then b else s
  | none => b

/-- ASCII-only case-insensitive character comparison, the case folding used by
a non-unicode-mode case-insensitive regex over an ASCII pattern. -/
def lowerEq (a b : Char) : Bool := decide (a.toLower = b.toLower)

/-- Test `ciMatch pat s` : `pat` is a case-insensitive prefix of `s`. -/
def ciMatch : List Char → List Char → Bool
  | [], _ => true
  | _ :: _, [] => false
  | p :: ps, c :: cs => lowerEq p c && ciMatch ps cs

/-- Test `ciContains pat s` : `s` has a case-insensitive occurrence of `pat`
(the test `value.match(MATTERMOST_REGEX)` being non-null). -/
def ciContains (pat : List Char) : List Char → Bool
  | [] => ciMatch pat []
  | c :: cs => ciMatch pat (c :: cs) || ciContains pat cs

/-- Worker for `ciReplace`, structurally recursive on the scanned list: a
positive skip counter consumes the characters already covered by the match
just replaced. -/
def ciReplaceAux (pat rep : List Char) : Nat → List Char → List Char
  | _, [] => []
  | Nat.succ k, _ :: cs => ciReplaceAux pat rep k cs
  | 0, c :: cs =>
    if ciMatch pat (c :: cs) then rep ++ ciReplaceAux pat rep (pat.length - 1) cs
    else c :: ciReplaceAux pat rep 0 cs

/-- Semantics of `value.replace(/pat/gi, rep)` : replace every leftmost, non-overlapping,
case-insensitive occurrence of `pat`, scanning left to right. -/
def ciReplace (pat rep : List Char) (s : List Char) : List Char :=
  ciReplaceAux pat rep 0 s

/-- A catalog value: a string, or an opaque non-string runtime value
abstracted to its truthiness. -/
inductive MVal where
  | str (s : String)
  | other (truthy : Bool)
deriving DecidableEq, Repr

/-- A message catalog: the entry list of the JavaScript object. -/
abbrev Catalog := List (String × MVal)

/-- JavaScript truthiness of a catalog value. -/
def mvalTruthy : MVal → Bool
  | .str s => !s.isEmpty
  | .other t => t

/-- The brand choice `BRAND_NAME_PER_LOCALE[locale] || BRAND_NAME_PER_LOCALE[PRIMARY_LOCALE]`
from applyBranding. -/
def brandFor (locale : String) : String :=
  jsOr (BRAND_NAME_PER_LOCALE locale) ((BRAND_NAME_PER_LOCALE PRIMARY_LOCALE).getD "")

/-- The per-entry body of applyBranding: replace when the value is a string
with a case-insensitive occurrence of the token, else pass through. -/
def brandVal (brandName : String) : MVal → MVal
  | .str v =>
    if ciContains MATTERMOST v.data then .str ⟨ciReplace MATTERMOST brandName.data v.data⟩
    else .str v
  | .other t => .other t

/-- applyBranding from src/app/i18n/index.ts: map over Object.entries and
rebuild the object. -/
def applyBranding (translations : Catalog) (locale : String) : Catalog :=
  translations.map (fun kv => (kv.1, brandVal (brandFor locale) kv.2))

/-- The module inputs external to the repository: the two bundled catalogs and
whether the formatjs locale-data requires of each switch branch throw. -/
structure Env where
  enCat : Catalog
  faCat : Catalog
  enAuxFails : Bool
  faAuxFails : Bool
deriving DecidableEq, Repr

/-- Whether the try block of loadTranslation throws for the given locale
argument: the fa branch performs the fa requires, every other argument (the
default branch) performs the en requires. -/
def loadFails (env : Env) (locale : Option String) : Bool :=
  if locale = some "fa" then env.faAuxFails else env.enAuxFails

/-- loadTranslation from src/app/i18n/index.ts.  The first component is the
returned catalog, the second the number of logError calls.  The try block
dispatches on the locale (case fa, default en), brands the selected catalog
with `locale || PRIMARY_LOCALE`; the catch branch logs once and returns
`applyBranding(en, PRIMARY_LOCALE)`. -/
def loadTranslation (env : Env) (locale : Option String) : Catalog × Nat :=
  if locale = some "fa" then
    if env.faAuxFails then (applyBranding env.enCat PRIMARY_LOCALE, 1)
    else (applyBranding env.faCat (jsOr locale PRIMARY_LOCALE), 0)
  else
    if env.enAuxFails then (applyBranding env.enCat PRIMARY_LOCALE, 1)
    else (applyBranding env.enCat (jsOr locale PRIMARY_LOCALE), 0)

/-- The language registry of src/unnamed/part_000: keyMirror over en and fa. -/
def availableLanguages : String → Option String := fun l =>
  if l = "en" then some "en" else if l = "fa" then some "fa" else none

/-- The head `lang.split('-')[0]` of a tag : the text before the first dash. -/
def splitHead (s : String) : String := ⟨s.data.takeWhile (fun c => c ≠ '-')⟩

/-- getLocaleFromLanguage from src/app/i18n/index.ts. -/
def getLocaleFromLanguage (lang : String) : String :=
  jsOr (availableLanguages lang) (jsOr (availableLanguages (splitHead lang)) PRIMARY_LOCALE)

/-- DEFAULT_LOCALE: getLocaleFromLanguage of the device locale, the device
tag defaulting to PRIMARY_LOCALE when absent. -/
def DEFAULT_LOCALE (deviceTag : Option String) : String :=
  getLocaleFromLanguage (jsOr deviceTag PRIMARY_LOCALE)

/-- resetMomentLocale: the value passed to the external date-library global
locale setter, `locale?.split('-')[0] || DEFAULT_LOCALE.split('-')[0]`. -/
def resetMomentLocale (deviceTag : Option String) (locale : Option String) : String :=
  jsOr (locale.map splitHead) (splitHead (DEFAULT_LOCALE deviceTag))

/-- getTranslations from src/app/i18n/index.ts. -/
def getTranslations (env : Env) (lang : String) : Catalog × Nat :=
  loadTranslation env (some (getLocaleFromLanguage lang))

/-- JavaScript `a || b` where `a` is a possibly-absent catalog value. -/
def mvalOr (a : Option MVal) (b : MVal) : MVal :=
  match a with
  | some v => if mvalTruthy v then v else b
  | none => b

/-- getLocalizedMessage from src/app/i18n/index.ts:
`translations[id] || defaultMessage || ''` over the catalog of the resolved
locale. -/
def getLocalizedMessage (env : Env) (lang id : String) (defaultMessage : Option String) : MVal :=
  mvalOr ((getTranslations env (getLocaleFromLanguage lang)).1.lookup id)
    (MVal.str (jsOr defaultMessage ""))

/-- Modelled from the spec (section 4.2), for the refinement claim C1: the
resolution algorithm as the spec words it - full-tag lookup first, then the
bare language code, then the fixed primary locale. -/
def resolveSpec (lang : String) : String :=
  match availableLanguages lang with
  | some l => l
  | none =>
    match availableLanguages (splitHead lang) with
    | some l => l
    | none => PRIMARY_LOCALE

/-- The lookup contract of getLocalizedMessage in spec words, amended by
truthiness: the found value when present and truthy, else the default message
when provided and non-empty, else the empty string. -/
def lookupMessageSpec (catalog : Catalog) (id : String) (d : Option String) : MVal :=
  match catalog.lookup id with
  | some v => if mvalTruthy v then v else MVal.str (jsOr d "")
  | none => MVal.str (jsOr d "")

/-- Concrete environment for the C2 counterexample: distinct catalogs, the fa
locale-data load failing. -/
def envC2 : Env := ⟨[("k", MVal.str "hello")], [("k", MVal.str "سلام")], false, true⟩

/-- Concrete environment for C4: the en locale-data load failing, a catalog
value holding the legacy token. -/
def envC4 : Env := ⟨[("k", MVal.str "Welcome to Mattermost")], [], true, false⟩

/-- Concrete environment for the C7 counterexample: a key present with an
empty-string value. -/
def envC7 : Env := ⟨[("greet", MVal.str "")], [], false, false⟩

/-- Concrete environment for the C9 witness. -/
def envC9 : Env := ⟨[("a", MVal.str ""), ("b", MVal.str "x")], [], false, false⟩

/-- Concrete catalog for the C6 witness. -/
def catC6 : Catalog := [("title", MVal.str "Hello"), ("count", MVal.other true)]

theorem getLocale_mem (t : String) :
    getLocaleFromLanguage t = "en" ∨ getLocaleFromLanguage t = "fa" := by
  have hen : ("en" : String).isEmpty = false := rfl
  have hfa : ("fa" : String).isEmpty = false := rfl
  by_cases h1 : t = "en"
  · subst h1; left; decide
  · by_cases h2 : t = "fa"
    · subst h2; right; decide
    · by_cases h3 : splitHead t = "en"
      · left; simp [getLocaleFromLanguage, availableLanguages, jsOr, h1, h2, h3, hen]
      · by_cases h4 : splitHead t = "fa"
        · right; simp [getLocaleFromLanguage, availableLanguages, jsOr, h1, h2, h3, h4, hfa]
        · right; simp [getLocaleFromLanguage, availableLanguages, jsOr, PRIMARY_LOCALE, h1, h2, h3, h4]

theorem getLocale_idem (t : String) :
    getLocaleFromLanguage (getLocaleFromLanguage t) = getLocaleFromLanguage t := by
  rcases getLocale_mem t with h | h <;> rw [h] <;> decide

theorem getTranslations_resolve (env : Env) (lang : String) :
    getTranslations env (getLocaleFromLanguage lang) = getTranslations env lang := by
  unfold getTranslations
  rw [getLocale_idem]

/-- C1: getLocaleFromLanguage looks up the full tag, then the bare language
code before the first dash, then falls back to the fixed primary locale; its
result is always one of the canonical locales en and fa, every canonical
locale resolves to itself, and - being a total Lean function - it never
fails. -/
theorem getLocaleFromLanguage_follows_spec (t : String) :
    getLocaleFromLanguage t = resolveSpec t
    ∧ (getLocaleFromLanguage t = "en" ∨ getLocaleFromLanguage t = "fa")
    ∧ getLocaleFromLanguage "en" = "en" ∧ getLocaleFromLanguage "fa" = "fa" := by
  refine ⟨?_, getLocale_mem t, by decide, by decide⟩
  have hen : ("en" : String).isEmpty = false := rfl
  have hfa : ("fa" : String).isEmpty = false := rfl
  by_cases h1 : t = "en"
  · subst h1; decide
  · by_cases h2 : t = "fa"
    · subst h2; decide
    · by_cases h3 : splitHead t = "en"
      · simp [getLocaleFromLanguage, resolveSpec, availableLanguages, jsOr, h1, h2, h3, hen]
      · by_cases h4 : splitHead t = "fa"
        · simp [getLocaleFromLanguage, resolveSpec, availableLanguages, jsOr, h1, h2, h3, h4, hfa]
        · simp [getLocaleFromLanguage, resolveSpec, availableLanguages, jsOr, PRIMARY_LOCALE, h1, h2, h3, h4]

/-- C2 (amended): getTranslations is total and never raises; when the
locale-data load for the resolved locale fails it logs exactly once and
returns the bundled English catalog branded with the primary locale - not the
primary locale catalog itself; on success it logs nothing and returns the
catalog selected by the dispatch, branded with the resolved locale. -/
theorem getTranslations_total (env : Env) (lang : String) :
    getTranslations env lang =
      if loadFails env (some (getLocaleFromLanguage lang))
      then (applyBranding env.enCat PRIMARY_LOCALE, 1)
      else (applyBranding (if getLocaleFromLanguage lang = "fa" then env.faCat else env.enCat)
              (getLocaleFromLanguage lang), 0) := by
  have hen : ("en" : String).isEmpty = false := rfl
  have hfa : ("fa" : String).isEmpty = false := rfl
  have hne : ("en" : String) ≠ "fa" := by decide
  have hne2 : (some "en" : Option String) ≠ some "fa" := by decide
  unfold getTranslations loadTranslation loadFails
  rcases getLocale_mem lang with h | h <;> rw [h]
  · cases hb : env.enAuxFails <;> simp [hne, hne2, hb, jsOr, hen]
  · cases hb : env.faAuxFails <;> simp [hb, jsOr, hfa]

/-- C2 counterexample: with the fa load failing, getTranslations for fa logs
once but returns the branded English catalog, which differs from the primary
locale catalog branded with the primary locale. -/
theorem getTranslations_cex :
    (getTranslations envC2 "fa").2 = 1
    ∧ (getTranslations envC2 "fa").1 = applyBranding envC2.enCat PRIMARY_LOCALE
    ∧ getTranslations envC2 "fa" ≠ (applyBranding envC2.faCat PRIMARY_LOCALE, 1) := by decide

/-- C4 (amended): when the locale-data load fails, the catch branch brands the
recovered English catalog with PRIMARY_LOCALE, whatever locale was
requested. -/
theorem loadTranslation_recovery (env : Env) (locale : Option String)
    (h : loadFails env locale = true) :
    loadTranslation env locale = (applyBranding env.enCat PRIMARY_LOCALE, 1) := by
  unfold loadFails at h
  unfold loadTranslation
  by_cases hl : locale = some "fa" <;> simp [hl] at h ⊢ <;> simp [h]

theorem loadTranslation_recovery_witness :
    loadFails envC4 (some "en") = true
    ∧ loadTranslation envC4 (some "en") = (applyBranding envC4.enCat PRIMARY_LOCALE, 1) :=
  ⟨by decide, loadTranslation_recovery envC4 (some "en") (by decide)⟩

/-- C4 counterexample: a failing load for the requested locale en does not
brand the recovered catalog with the requested locale en. -/
theorem loadTranslation_recovery_cex :
    loadFails envC4 (some "en") = true
    ∧ loadTranslation envC4 (some "en") ≠ (applyBranding envC4.enCat "en", 1) := by decide

/-- C6: applyBranding keeps exactly the keys of its input (in order), and an
entry whose value is a non-string, or a string with no case-insensitive
occurrence of the legacy token, is passed through unchanged; the input
catalog itself is untouched, the embedding being pure. -/
theorem applyBranding_frame (cat : Catalog) (locale k : String) (v : MVal)
    (hmem : (k, v) ∈ cat)
    (hs : ∀ s, v = MVal.str s → ciContains MATTERMOST s.data = false) :
    (applyBranding cat locale).map Prod.fst = cat.map Prod.fst
    ∧ (k, v) ∈ applyBranding cat locale := by
  constructor
  · unfold applyBranding
    rw [List.map_map]
    rfl
  · have hv : brandVal (brandFor locale) v = v := by
      cases v with
      | other t => rfl
      | str s => simp [brandVal, hs s rfl]
    have hm := List.mem_map_of_mem (fun kv : String × MVal => (kv.1, brandVal (brandFor locale) kv.2)) hmem
    simpa [applyBranding, hv] using hm

theorem applyBranding_frame_witness :
    (("count", MVal.other true) ∈ catC6
      ∧ ∀ s, MVal.other true = MVal.str s → ciContains MATTERMOST s.data = false)
    ∧ ((applyBranding catC6 "en").map Prod.fst = catC6.map Prod.fst
      ∧ ("count", MVal.other true) ∈ applyBranding catC6 "en") :=
  ⟨⟨by decide, fun _ h => nomatch h⟩,
    applyBranding_frame catC6 "en" "count" (MVal.other true) (by decide) (fun _ h => nomatch h)⟩

/-- C7 (amended): getLocalizedMessage equals, for the catalog of the original
tag, the lookup that returns the found value only when it is truthy, and
otherwise the default message when provided and non-empty, and otherwise the
empty string; it is a total function and never fails. -/
theorem getLocalizedMessage_amended (env : Env) (lang id : String) (d : Option String) :
    getLocalizedMessage env lang id d = lookupMessageSpec (getTranslations env lang).1 id d := by
  unfold getLocalizedMessage lookupMessageSpec mvalOr
  rw [getTranslations_resolve]

/-- C7 counterexample: a key present with an empty-string value does not come
back as the found value; the caller-supplied default is returned instead. -/
theorem getLocalizedMessage_cex :
    (getTranslations envC7 "en").1.lookup "greet" = some (MVal.str "")
    ∧ getLocalizedMessage envC7 "en" "greet" (some "fallback") = MVal.str "fallback"
    ∧ getLocalizedMessage envC7 "en" "greet" (some "fallback") ≠ MVal.str "" := by decide

/-- C8 (amended): resetMomentLocale passes to the date library the bare
language code of the tag it is given, without resolving that tag; only when
no tag is given, or its bare code is empty, does it use the bare code of the
default locale, which is already canonical and so equal to its own bare
code. -/
theorem resetMomentLocale_amended (deviceTag : Option String) (locale : String) :
    resetMomentLocale deviceTag (some locale)
      = (if (splitHead locale).isEmpty then splitHead (DEFAULT_LOCALE deviceTag)
         else splitHead locale)
    ∧ resetMomentLocale deviceTag none = splitHead (DEFAULT_LOCALE deviceTag)
    ∧ splitHead (DEFAULT_LOCALE deviceTag) = DEFAULT_LOCALE deviceTag := by
  refine ⟨rfl, rfl, ?_⟩
  unfold DEFAULT_LOCALE
  rcases getLocale_mem (jsOr deviceTag PRIMARY_LOCALE) with h | h <;> rw [h] <;> decide

/-- C8 counterexample: for the tag de-DE the code sets the date library to de,
while the bare code of the resolved canonical locale would be fa. -/
theorem resetMomentLocale_cex :
    resetMomentLocale none (some "de-DE") = "de"
    ∧ getLocaleFromLanguage "de-DE" = "fa"
    ∧ resetMomentLocale none (some "de-DE") ≠ splitHead (getLocaleFromLanguage "de-DE") := by decide

/-- C9: a key present in the resolved catalog with an empty-string value is
handled exactly like a missing key: both return the default message when one
is given, and the empty string otherwise. -/
theorem emptyValue_indistinguishable (env : Env) (lang id id2 : String) (d : Option String)
    (h1 : (getTranslations env lang).1.lookup id = some (MVal.str ""))
    (h2 : (getTranslations env lang).1.lookup id2 = none) :
    getLocalizedMessage env lang id d = MVal.str (jsOr d "")
    ∧ getLocalizedMessage env lang id2 d = MVal.str (jsOr d "") := by
  unfold getLocalizedMessage
  rw [getTranslations_resolve, h1, h2]
  exact ⟨rfl, rfl⟩

theorem emptyValue_indistinguishable_witness :
    ((getTranslations envC9 "en").1.lookup "a" = some (MVal.str "")
      ∧ (getTranslations envC9 "en").1.lookup "zz" = none)
    ∧ (getLocalizedMessage envC9 "en" "a" (some "fallback") = MVal.str (jsOr (some "fallback") "")
      ∧ getLocalizedMessage envC9 "en" "zz" (some "fallback") = MVal.str (jsOr (some "fallback") "")) :=
  ⟨⟨by decide, by decide⟩,
    emptyValue_indistinguishable envC9 "en" "a" "zz" (some "fallback") (by decide) (by decide)⟩

/-- C10: getLocaleFromLanguage is idempotent, so the double resolution inside
getLocalizedMessage is harmless: it reads exactly the catalog that
getTranslations returns for the original tag. -/
theorem getLocaleFromLanguage_idempotent (env : Env) (t id : String) (d : Option String) :
    getLocaleFromLanguage (getLocaleFromLanguage t) = getLocaleFromLanguage t
    ∧ getTranslations env (getLocaleFromLanguage t) = getTranslations env t
    ∧ getLocalizedMessage env t id d
        = mvalOr ((getTranslations env t).1.lookup id) (MVal.str (jsOr d "")) := by
  refine ⟨getLocale_idem t, getTranslations_resolve env t, ?_⟩
  unfold getLocalizedMessage
  rw [getTranslations_resolve]

/-- Concrete catalog for the C3 witness. -/
def catC3 : Catalog := [("about", MVal.str "Mattermost and MATTERMOST Desktop")]

theorem lowerEq_symm (a b : Char) : lowerEq a b = lowerEq b a := by
  unfold lowerEq
  exact decide_eq_decide.mpr eq_comm

theorem ciMatch_append_elim (x y t : List Char) (h : ciMatch x (y ++ t) = true) :
    (y.length < x.length ∧ ciMatch y x = true) ∨ ciMatch x y = true := by
  induction y generalizing x with
  | nil =>
    cases x with
    | nil => right; rfl
    | cons a xs => left; exact ⟨by simp, rfl⟩
  | cons b ys ih =>
    cases x with
    | nil => right; rfl
    | cons a xs =>
      rw [List.cons_append] at h
      simp only [ciMatch, Bool.and_eq_true] at h
      rcases ih xs h.2 with ⟨hl, hm⟩ | hm
      · left
        refine ⟨by simpa using Nat.succ_lt_succ hl, ?_⟩
        simp only [ciMatch, Bool.and_eq_true]
        exact ⟨(lowerEq_symm b a).trans h.1, hm⟩
      · right
        simp only [ciMatch, Bool.and_eq_true]
        exact ⟨h.1, hm⟩

theorem ciContains_append_elim (pat y t : List Char) (h : ciContains pat (y ++ t) = true) :
    (∃ j, j < y.length ∧ ciMatch pat (y.drop j ++ t) = true) ∨ ciContains pat t = true := by
  induction y with
  | nil => right; simpa using h
  | cons b ys ih =>
    rw [List.cons_append] at h
    simp only [ciContains, Bool.or_eq_true] at h
    rcases h with h1 | h2
    · left; exact ⟨0, by simp, by simpa using h1⟩
    · rcases ih h2 with ⟨j, hj, hm⟩ | hc
      · left
        refine ⟨j + 1, by simpa using Nat.succ_lt_succ hj, ?_⟩
        simpa [List.drop_succ_cons] using hm
      · right; exact hc

theorem ciContains_of_drop (pat l : List Char) :
    ∀ j, ciMatch pat (l.drop j) = true → ciContains pat l = true := by
  induction l with
  | nil => intro j h; simpa [ciContains] using h
  | cons c cs ih =>
    intro j h
    cases j with
    | zero =>
      simp only [List.drop_zero] at h
      simp only [ciContains, Bool.or_eq_true]
      left; exact h
    | succ j =>
      simp only [List.drop_succ_cons] at h
      simp only [ciContains, Bool.or_eq_true]
      right; exact ih j h

theorem drop_shape (l : List Char) : ∀ k, k < l.length → ∃ a, l.drop k = a :: l.drop (k + 1) := by
  induction l with
  | nil => intro k hk; simp at hk
  | cons c cs ih =>
    intro k hk
    cases k with
    | zero => exact ⟨c, by simp⟩
    | succ k =>
      obtain ⟨a, ha⟩ := ih k (by simpa using Nat.lt_of_succ_lt_succ hk)
      exact ⟨a, by simpa [List.drop_succ_cons] using ha⟩

theorem ciContains_nil_eq_false (pat : List Char) (hp : 0 < pat.length) :
    ciContains pat [] = false := by
  cases pat with
  | nil => simp at hp
  | cons q qs => rfl

theorem ciReplaceAux_skip (pat rep : List Char) :
    ∀ (s : List Char) (k : Nat), ciReplaceAux pat rep k s = ciReplaceAux pat rep 0 (s.drop k) := by
  intro s
  induction s with
  | nil => intro k; simp [ciReplaceAux]
  | cons c cs ih =>
    intro k
    cases k with
    | zero => simp
    | succ k => simpa [List.drop_succ_cons] using ih k

theorem ciReplaceAux_cons (pat rep : List Char) (c : Char) (cs : List Char) :
    ciReplaceAux pat rep 0 (c :: cs)
      = if ciMatch pat (c :: cs) then rep ++ ciReplaceAux pat rep (pat.length - 1) cs
        else c :: ciReplaceAux pat rep 0 cs := rfl

theorem ciReplace_safe_aux (pat rep : List Char) (hp : 0 < pat.length)
    (h1 : ciContains pat rep = false)
    (h2 : ∀ j, j < rep.length → rep.length - j < pat.length → ciMatch (rep.drop j) pat = false)
    (h3 : ∀ k, k < pat.length → ciMatch (pat.drop k) rep = false ∧ ciMatch rep (pat.drop k) = false) :
    ∀ (n : Nat) (s : List Char), s.length ≤ n →
      (∀ k, k < pat.length → ciMatch (pat.drop k) (ciReplace pat rep s) = true →
        ciMatch (pat.drop k) s = true)
      ∧ ciContains pat (ciReplace pat rep s) = false := by
  intro n
  induction n with
  | zero =>
    intro s hs
    have hnil : s = [] := List.length_eq_zero.mp (Nat.le_zero.mp hs)
    subst hnil
    exact ⟨fun k _ hm => hm, ciContains_nil_eq_false pat hp⟩
  | succ n ih =>
    intro s hs
    cases s with
    | nil => exact ⟨fun k _ hm => hm, ciContains_nil_eq_false pat hp⟩
    | cons c cs =>
      have hcs : cs.length ≤ n := by
        simp only [List.length_cons] at hs
        omega
      by_cases hm : ciMatch pat (c :: cs) = true
      · have hrw : ciReplace pat rep (c :: cs)
            = rep ++ ciReplace pat rep (cs.drop (pat.length - 1)) := by
          unfold ciReplace
          rw [ciReplaceAux_cons, if_pos hm, ciReplaceAux_skip]
        have hlen : (cs.drop (pat.length - 1)).length ≤ n := by
          simp only [List.length_drop]
          omega
        have IH := ih (cs.drop (pat.length - 1)) hlen
        have hL : ∀ k, k < pat.length →
            ciMatch (pat.drop k) (ciReplace pat rep (c :: cs)) = true →
            ciMatch (pat.drop k) (c :: cs) = true := by
          intro k hk hmk
          rw [hrw] at hmk
          rcases ciMatch_append_elim _ _ _ hmk with ⟨_, hm2⟩ | hm2
          · exact absurd hm2 (by simp [(h3 k hk).2])
          · exact absurd hm2 (by simp [(h3 k hk).1])
        refine ⟨hL, ?_⟩
        rw [hrw]
        cases hc : ciContains pat (rep ++ ciReplace pat rep (cs.drop (pat.length - 1))) with
        | false => rfl
        | true =>
          exfalso
          rcases ciContains_append_elim _ _ _ hc with ⟨j, hj, hmj⟩ | hct
          · rcases ciMatch_append_elim _ _ _ hmj with ⟨hlt, hm2⟩ | hm2
            · have hcond : rep.length - j < pat.length := by
                simpa [List.length_drop] using hlt
              exact absurd hm2 (by simp [h2 j hj hcond])
            · have hin := ciContains_of_drop pat rep j hm2
              rw [h1] at hin
              exact Bool.false_ne_true hin
          · rw [IH.2] at hct
            exact Bool.false_ne_true hct
      · have hrw : ciReplace pat rep (c :: cs) = c :: ciReplace pat rep cs := by
          unfold ciReplace
          rw [ciReplaceAux_cons, if_neg hm]
        have IH := ih cs hcs
        have hL : ∀ k, k < pat.length →
            ciMatch (pat.drop k) (ciReplace pat rep (c :: cs)) = true →
            ciMatch (pat.drop k) (c :: cs) = true := by
          intro k hk hmk
          rw [hrw] at hmk
          obtain ⟨a, ha⟩ := drop_shape pat k hk
          rw [ha] at hmk ⊢
          simp only [ciMatch, Bool.and_eq_true] at hmk ⊢
          refine ⟨hmk.1, ?_⟩
          by_cases hk1 : k + 1 < pat.length
          · exact IH.1 (k + 1) hk1 hmk.2
          · have hnil2 : pat.drop (k + 1) = [] := List.drop_eq_nil_of_le (Nat.le_of_not_lt hk1)
            rw [hnil2]
            rfl
        refine ⟨hL, ?_⟩
        rw [hrw]
        have hhead : ciMatch pat (c :: ciReplace pat rep cs) = false := by
          cases hq : ciMatch pat (c :: ciReplace pat rep cs) with
          | false => rfl
          | true =>
            exfalso
            have hms := hL 0 hp (by rw [hrw]; simpa [List.drop_zero] using hq)
            rw [List.drop_zero] at hms
            exact hm hms
        simp [ciContains, hhead, IH.2]

theorem ciReplace_noOcc (pat rep : List Char) (hp : 0 < pat.length)
    (h1 : ciContains pat rep = false)
    (h2 : ∀ j, j < rep.length → rep.length - j < pat.length → ciMatch (rep.drop j) pat = false)
    (h3 : ∀ k, k < pat.length → ciMatch (pat.drop k) rep = false ∧ ciMatch rep (pat.drop k) = false)
    (s : List Char) :
    ciContains pat (ciReplace pat rep s) = false :=
  (ciReplace_safe_aux pat rep hp h1 h2 h3 s.length s le_rfl).2

theorem ciReplace_id (pat rep : List Char) :
    ∀ s : List Char, ciContains pat s = false → ciReplace pat rep s = s := by
  intro s
  induction s with
  | nil => intro _; rfl
  | cons c cs ih =>
    intro h
    simp only [ciContains, Bool.or_eq_false_iff] at h
    unfold ciReplace
    rw [ciReplaceAux_cons, if_neg (by simp [h.1])]
    unfold ciReplace at ih
    rw [ih h.2]

theorem ciReplace_brand_mem (pat rep : List Char) (hp : 0 < pat.length) :
    ∀ s, ciContains pat s = true → ∃ l r, ciReplace pat rep s = l ++ rep ++ r := by
  intro s
  induction s with
  | nil =>
    intro h
    rw [ciContains_nil_eq_false pat hp] at h
    exact absurd h (by simp)
  | cons c cs ih =>
    intro h
    by_cases hm : ciMatch pat (c :: cs) = true
    · refine ⟨[], ciReplace pat rep (cs.drop (pat.length - 1)), ?_⟩
      unfold ciReplace
      rw [ciReplaceAux_cons, if_pos hm, ciReplaceAux_skip]
      simp [ciReplace]
    · simp only [ciContains, Bool.or_eq_true] at h
      rcases h with h | h
      · exact absurd h hm
      · obtain ⟨l, r, hlr⟩ := ih h
        refine ⟨c :: l, r, ?_⟩
        unfold ciReplace
        rw [ciReplaceAux_cons, if_neg hm]
        unfold ciReplace at hlr
        rw [hlr]
        simp

theorem brandFor_of_some (locale b : String) (h : BRAND_NAME_PER_LOCALE locale = some b) :
    brandFor locale = b := by
  unfold BRAND_NAME_PER_LOCALE at h
  by_cases h1 : locale = "en"
  · subst h1
    rw [if_pos rfl] at h
    injection h with hb
  · by_cases h2 : locale = "fa"
    · subst h2
      rw [if_neg (by decide), if_pos rfl] at h
      injection h with hb
    · rw [if_neg h1, if_neg h2] at h
      exact absurd h (by simp)

theorem brandFor_of_none (locale : String) (h : BRAND_NAME_PER_LOCALE locale = none) :
    brandFor locale = "دبستان اندیشه حسینی" := by
  unfold brandFor
  rw [h]
  decide

theorem brandFor_cases (locale : String) :
    brandFor locale = "Andisheh Hosseini Elementary"
    ∨ brandFor locale = "دبستان اندیشه حسینی" := by
  by_cases h1 : locale = "en"
  · subst h1; left; decide
  · by_cases h2 : locale = "fa"
    · subst h2; right; decide
    · right
      refine brandFor_of_none locale ?_
      unfold BRAND_NAME_PER_LOCALE
      rw [if_neg h1, if_neg h2]

theorem brand_noOcc (locale : String) (s : List Char) :
    ciContains MATTERMOST (ciReplace MATTERMOST (brandFor locale).data s) = false := by
  rcases brandFor_cases locale with h | h <;> rw [h] <;>
    exact ciReplace_noOcc _ _ (by decide) (by decide) (by decide) (by decide) s

/-- C5: applyBranding is idempotent; after one pass no case-insensitive
occurrence of the legacy token survives in any string value (neither
configured brand string can recreate one), so a second pass with the same
locale changes nothing. -/
theorem applyBranding_idempotent (cat : Catalog) (locale : String) :
    applyBranding (applyBranding cat locale) locale = applyBranding cat locale := by
  have hval : ∀ v : MVal, brandVal (brandFor locale) (brandVal (brandFor locale) v)
      = brandVal (brandFor locale) v := by
    intro v
    cases v with
    | other t => rfl
    | str s =>
      by_cases hc : ciContains MATTERMOST s.data = true
      · simp [brandVal, hc, brand_noOcc locale s.data]
      · simp [brandVal, hc]
  unfold applyBranding
  rw [List.map_map]
  have hfun : ((fun kv : String × MVal => (kv.1, brandVal (brandFor locale) kv.2)) ∘
        (fun kv : String × MVal => (kv.1, brandVal (brandFor locale) kv.2)))
      = fun kv : String × MVal => (kv.1, brandVal (brandFor locale) kv.2) := by
    funext kv
    simp [Function.comp, hval]
  rw [hfun]

/-- C3: for an entry whose string value has a case-insensitive occurrence of
the legacy token, applyBranding rewrites the value with the left-to-right
global case-insensitive replacement; no occurrence survives (so every match,
of any casing, was replaced), the brand string appears verbatim in the
result, and the brand used is the one configured for the locale, the
primary locale brand being the fallback for unconfigured locales. -/
theorem applyBranding_replaces_every_occurrence
    (cat : Catalog) (locale key : String) (v : String)
    (hmem : (key, MVal.str v) ∈ cat)
    (hocc : ciContains MATTERMOST v.data = true) :
    (key, MVal.str ⟨ciReplace MATTERMOST (brandFor locale).data v.data⟩) ∈ applyBranding cat locale
    ∧ ciContains MATTERMOST (ciReplace MATTERMOST (brandFor locale).data v.data) = false
    ∧ (∃ l r, ciReplace MATTERMOST (brandFor locale).data v.data
        = l ++ (brandFor locale).data ++ r)
    ∧ (∀ b, BRAND_NAME_PER_LOCALE locale = some b → brandFor locale = b)
    ∧ (BRAND_NAME_PER_LOCALE locale = none →
        BRAND_NAME_PER_LOCALE PRIMARY_LOCALE = some (brandFor locale)) := by
  refine ⟨?_, brand_noOcc locale v.data,
    ciReplace_brand_mem _ _ (by decide) v.data hocc,
    fun b hb => brandFor_of_some locale b hb,
    fun hn => by rw [brandFor_of_none locale hn]; decide⟩
  have hm := List.mem_map_of_mem
    (fun kv : String × MVal => (kv.1, brandVal (brandFor locale) kv.2)) hmem
  simpa [applyBranding, brandVal, hocc] using hm

theorem applyBranding_replaces_every_occurrence_witness :
    (("about", MVal.str "Mattermost and MATTERMOST Desktop") ∈ catC3
      ∧ ciContains MATTERMOST ("Mattermost and MATTERMOST Desktop" : String).data = true)
    ∧ (("about", MVal.str ⟨ciReplace MATTERMOST (brandFor "en").data
          ("Mattermost and MATTERMOST Desktop" : String).data⟩) ∈ applyBranding catC3 "en"
      ∧ ciContains MATTERMOST (ciReplace MATTERMOST (brandFor "en").data
          ("Mattermost and MATTERMOST Desktop" : String).data) = false
      ∧ (∃ l r, ciReplace MATTERMOST (brandFor "en").data
          ("Mattermost and MATTERMOST Desktop" : String).data
            = l ++ (brandFor "en").data ++ r)
      ∧ (∀ b, BRAND_NAME_PER_LOCALE "en" = some b → brandFor "en" = b)
      ∧ (BRAND_NAME_PER_LOCALE "en" = none →
          BRAND_NAME_PER_LOCALE PRIMARY_LOCALE = some (brandFor "en"))) :=
  ⟨⟨by decide, by decide⟩,
    applyBranding_replaces_every_occurrence catC3 "en" "about"
      "Mattermost and MATTERMOST Desktop" (by decide) (by decide)⟩
